import Mathlib

/-!
Shallow embedding of the expense-tracker core (src/app.py): the ledger
aggregator `calculate_balances` (lines 53-78) and the settlement planner
`calculate_settlement` (lines 80-120).

Modelling choices:
* Python floats are embedded as exact rationals (ℚ); the spec's tolerances
  ("within floating tolerance", epsilon = 0.01) are stated over ℚ.
* The balances dict, whose keys are exactly the roster `ROOMMATES`, is a
  function `String → ℚ`; a dict subscript on a key outside the roster raises
  KeyError in Python, which (like ZeroDivisionError for an empty
  `shared_with`) is embedded as `Option.none` for the whole computation.
* The global configuration list `ROOMMATES` is passed to each function as an
  explicit `roster` argument (the spec treats the roster as injected
  configuration); the program instantiates it with `ROOMMATES`.
* Only the fields the two core functions read are kept on the records
  (`payer`/`amount`/`shared_with`, `from`/`to`/`amount`); the display-only
  fields `date`, `description`, `notes` play no role in the computation.
  The field named `from` is a reserved word in Lean, hence `pfrom`/`sfrom`.
-/

/-- An expense record, as appended by the expense form (src/app.py:240-247),
restricted to the fields `calculate_balances` reads. -/
structure Expense where
  payer : String
  amount : ℚ
  shared_with : List String
  deriving DecidableEq

/-- A payment record (src/app.py:281-287), restricted to the fields
`calculate_balances` reads. `pfrom`/`pto` stand for the `from`/`to` keys. -/
structure Payment where
  pfrom : String
  pto : String
  amount : ℚ
  deriving DecidableEq

/-- The fixed roster configuration (src/app.py:8). -/
def ROOMMATES : List String := ["Safi", "Gandofly", "Lolo", "Jojo", "Body", "Paki"]

/-- Pointwise update of a balances mapping: `balances[k] = v`. -/
def update (b : String → ℚ) (k : String) (v : ℚ) : String → ℚ :=
  fun p => if p = k then v else b p

/-- The inner loop of expense processing (src/app.py:70-71):
`for person in shared_with: balances[person] -= split_amount`.
A `person` outside the roster (the dict's key set) raises KeyError: `none`. -/
def debitShares (roster : List String) (split_amount : ℚ) :
    (String → ℚ) → List String → Option (String → ℚ)
  | b, [] => some b
  | b, person :: rest =>
    if person ∈ roster then
      debitShares roster split_amount (update b person (b person - split_amount)) rest
    else none

/-- Processing of one expense (src/app.py:58-71): compute
`split_amount = amount / len(shared_with)` (ZeroDivisionError, i.e. `none`,
when `shared_with` is empty), credit the payer with the full amount
(KeyError, i.e. `none`, for an unknown payer), then debit every sharer. -/
def applyExpense (roster : List String) (b : String → ℚ) (e : Expense) :
    Option (String → ℚ) :=
  if e.shared_with.length = 0 then none
  else if e.payer ∈ roster then
    debitShares roster (e.amount / (e.shared_with.length : ℚ))
      (update b e.payer (b e.payer + e.amount)) e.shared_with
  else none

/-- Processing of one payment (src/app.py:74-76):
`balances[from] += amount; balances[to] -= amount`, with KeyError (`none`)
for a name outside the roster. -/
def applyPayment (roster : List String) (b : String → ℚ) (p : Payment) :
    Option (String → ℚ) :=
  if p.pfrom ∈ roster then
    if p.pto ∈ roster then
      let b1 := update b p.pfrom (b p.pfrom + p.amount)
      some (update b1 p.pto (b1 p.pto - p.amount))
    else none
  else none

/-- Left fold of a fallible step over a record list; a raised exception
(`none`) aborts the whole computation, as in Python. -/
def foldOpt {α : Type} (f : (String → ℚ) → α → Option (String → ℚ)) :
    (String → ℚ) → List α → Option (String → ℚ)
  | b, [] => some b
  | b, x :: xs => (f b x).bind (fun b2 => foldOpt f b2 xs)

/-- `calculate_balances` (src/app.py:53-78): start every roster member at 0,
process all expenses, then all payments. The session-state record lists are
passed as arguments, the roster global as the `roster` argument. -/
def calculate_balances (roster : List String) (expenses : List Expense)
    (payments : List Payment) : Option (String → ℚ) :=
  (foldOpt (applyExpense roster) (fun _ => 0) expenses).bind
    (fun b => foldOpt (applyPayment roster) b payments)

/-- One entry of the planner's working lists: `{"name": person, "amount": m}`
(src/app.py:89,91). -/
structure Entry where
  name : String
  amount : ℚ
  deriving DecidableEq

/-- A suggested transfer `{"from": ..., "to": ..., "amount": ...}`
(src/app.py:106-110). `sfrom`/`sto` stand for the `from`/`to` keys. -/
structure Settlement where
  sfrom : String
  sto : String
  amount : ℚ
  deriving DecidableEq

/-- The creditor partition (src/app.py:87-89): roster members with balance
strictly above 0.01, in roster (= dict insertion) order, with their balance
as the entry amount. -/
def creditorsOf (roster : List String) (b : String → ℚ) : List Entry :=
  (roster.filter (fun person => b person > 0.01)).map
    (fun person => ⟨person, b person⟩)

/-- The debtor partition (src/app.py:90-91): roster members with balance
strictly below -0.01, in roster order, with the negated balance as amount. -/
def debtorsOf (roster : List String) (b : String → ℚ) : List Entry :=
  (roster.filter (fun person => b person < -0.01)).map
    (fun person => ⟨person, -(b person)⟩)

/-- Stable descending insertion by amount: an element is placed before the
first strictly smaller one, so equal amounts keep their original order. -/
def insertAmountDesc (x : Entry) : List Entry → List Entry
  | [] => [x]
  | y :: ys => if x.amount ≥ y.amount then x :: y :: ys else y :: insertAmountDesc x ys

/-- `list.sort(key=lambda x: x["amount"], reverse=True)` (src/app.py:93-94):
Python's sort is stable, so this is the unique permutation that is descending
by amount with ties in original (roster) order; stable insertion sort
computes exactly that permutation. -/
def sortAmountDesc : List Entry → List Entry
  | [] => []
  | x :: xs => insertAmountDesc x (sortAmountDesc xs)

/-- `round(x, 2)` (src/app.py:109), over ℚ: round to a whole number of
hundredths. (Mathlib's `round` resolves exact half-cents upward where Python
resolves them to the even cent; no statement below depends on a half-cent.) -/
def round2 (x : ℚ) : ℚ := ((round (x * 100) : ℤ) : ℚ) / 100

/-- The two-pointer matching loop (src/app.py:96-120). The pointer
arithmetic over the two arrays is embedded as structural recursion on the
suffixes from each pointer on, the in-place decrements as replacement of the
head entry. In the final branch (`debtor.amount - transfer ≥ 0.01`) we have
`transfer < debtor.amount`, so `transfer = min _ _` forces
`transfer = creditor.amount`: the creditor's remaining amount is 0 and
Python's independent check `creditor["amount"] < 0.01` necessarily advances
`j`, which the branch does unconditionally. -/
def sweep : List Entry → List Entry → List Settlement
  | [], _ => []
  | _ :: _, [] => []
  | debtor :: ds, creditor :: cs =>
    let transfer := min debtor.amount creditor.amount
    let rest :=
      if debtor.amount - transfer < 0.01 then
        if creditor.amount - transfer < 0.01 then
          sweep ds cs
        else
          sweep ds (⟨creditor.name, creditor.amount - transfer⟩ :: cs)
      else
        sweep (⟨debtor.name, debtor.amount - transfer⟩ :: ds) cs
    if transfer > 0.01 then
      ⟨debtor.name, creditor.name, round2 transfer⟩ :: rest
    else rest
termination_by d c => d.length + c.length
decreasing_by all_goals (simp only [List.length_cons]; omega)

/-- The settlement planner applied to a given balances mapping: the body of
`calculate_settlement` after the `calculate_balances()` call
(src/app.py:84-120). -/
def calculate_settlement_on (roster : List String) (b : String → ℚ) :
    List Settlement :=
  sweep (sortAmountDesc (debtorsOf roster b)) (sortAmountDesc (creditorsOf roster b))

/-- `calculate_settlement` (src/app.py:80-120): compute the balances, then
plan; a failure of `calculate_balances` propagates. -/
def calculate_settlement (roster : List String) (expenses : List Expense)
    (payments : List Payment) : Option (List Settlement) :=
  (calculate_balances roster expenses payments).map (calculate_settlement_on roster)

/-- The matching loop with an explicit iteration budget: `none` means the
budget was exhausted with both lists still non-empty. Used to state that the
loop of src/app.py:99-118 finishes within `len(debtors) + len(creditors)`
iterations, i.e. every iteration advances at least one pointer. -/
def sweepFuel : Nat → List Entry → List Entry → Option (List Settlement)
  | _, [], _ => some []
  | _, _ :: _, [] => some []
  | 0, _ :: _, _ :: _ => none
  | n + 1, debtor :: ds, creditor :: cs =>
    let transfer := min debtor.amount creditor.amount
    let rest :=
      if debtor.amount - transfer < 0.01 then
        if creditor.amount - transfer < 0.01 then
          sweepFuel n ds cs
        else
          sweepFuel n ds (⟨creditor.name, creditor.amount - transfer⟩ :: cs)
      else
        sweepFuel n (⟨debtor.name, debtor.amount - transfer⟩ :: ds) cs
    rest.map (fun r =>
      if transfer > 0.01 then
        ⟨debtor.name, creditor.name, round2 transfer⟩ :: r
      else r)

/-- Structural well-formedness of an expense over a roster, as guaranteed by
the input form (src/app.py:216,225,237): payer picked from the roster,
sharers picked from the roster, at least one sharer. -/
def validExpense (roster : List String) (e : Expense) : Prop :=
  e.payer ∈ roster ∧ e.shared_with ≠ [] ∧ ∀ q ∈ e.shared_with, q ∈ roster

/-- Well-formedness of a payment over a roster (src/app.py:265,268): both
ends picked from the roster. -/
def validPayment (roster : List String) (p : Payment) : Prop :=
  p.pfrom ∈ roster ∧ p.pto ∈ roster

instance (roster : List String) (e : Expense) : Decidable (validExpense roster e) := by
  unfold validExpense; infer_instance

instance (roster : List String) (p : Payment) : Decidable (validPayment roster p) := by
  unfold validPayment; infer_instance

/-- The additive contribution of one expense to a roster member's balance:
the payer is credited the full amount, and every occurrence of the member in
`shared_with` is debited one split share. -/
def expDelta (e : Expense) (q : String) : ℚ :=
  (if q = e.payer then e.amount else 0) -
    ((e.shared_with.count q : ℚ)) * (e.amount / (e.shared_with.length : ℚ))

/-- The additive contribution of one payment to a roster member's balance. -/
def payDelta (p : Payment) (q : String) : ℚ :=
  (if q = p.pfrom then p.amount else 0) - (if q = p.pto then p.amount else 0)

/-! ### Helper lemmas about sums over the roster -/

theorem map_sum_add (R : List String) (f g : String → ℚ) :
    (R.map (fun q => f q + g q)).sum = (R.map f).sum + (R.map g).sum := by
  induction R with
  | nil => simp
  | cons a R ih => simp only [List.map_cons, List.sum_cons, ih]; ring

theorem map_sum_sub (R : List String) (f g : String → ℚ) :
    (R.map (fun q => f q - g q)).sum = (R.map f).sum - (R.map g).sum := by
  induction R with
  | nil => simp
  | cons a R ih => simp only [List.map_cons, List.sum_cons, ih]; ring

theorem map_sum_mul (R : List String) (f : String → ℚ) (c : ℚ) :
    (R.map (fun q => f q * c)).sum = (R.map f).sum * c := by
  induction R with
  | nil => simp
  | cons a R ih => simp only [List.map_cons, List.sum_cons, ih]; ring

theorem map_sum_zero (R : List String) : (R.map (fun _ => (0 : ℚ))).sum = 0 := by
  induction R with
  | nil => simp
  | cons a R ih => simp [ih]

theorem map_sum_ite (k : String) (v : ℚ) :
    ∀ R : List String, R.Nodup →
      (R.map (fun q => if q = k then v else 0)).sum = if k ∈ R then v else 0 := by
  intro R
  induction R with
  | nil => simp
  | cons a R ih =>
    intro hR
    rcases List.nodup_cons.mp hR with ⟨ha, hR'⟩
    by_cases hak : a = k
    · subst hak
      simp [ih hR', ha]
    · have hka : ¬ k = a := fun h => hak h.symm
      simp [hak, hka, ih hR', List.mem_cons]

/-! ### Additivity of the aggregator steps -/

theorem debitShares_eq (R : List String) (split : ℚ) :
    ∀ (sw : List String) (b : String → ℚ), (∀ q ∈ sw, q ∈ R) →
      debitShares R split b sw = some (fun q => b q - (sw.count q : ℚ) * split) := by
  intro sw
  induction sw with
  | nil =>
    intro b _
    simp [debitShares]
  | cons p rest ih =>
    intro b h
    have hp : p ∈ R := h p (by simp)
    simp only [debitShares, if_pos hp]
    rw [ih _ (fun q hq => h q (List.mem_cons_of_mem _ hq))]
    congr 1
    funext q
    by_cases hqp : q = p
    · subst hqp
      simp only [update, if_pos rfl, List.count_cons_self]
      push_cast
      ring
    · have hpq : ¬ (p == q) = true := by
        simp only [beq_iff_eq]
        exact fun hh => hqp hh.symm
      simp only [update, if_neg hqp, List.count_cons, hpq, if_false]
      push_cast
      ring

theorem applyExpense_eq (R : List String) (b : String → ℚ) (e : Expense)
    (he : validExpense R e) :
    applyExpense R b e = some (fun q => b q + expDelta e q) := by
  obtain ⟨hp, hne, hsub⟩ := he
  have hlen : ¬ e.shared_with.length = 0 := by
    simpa [List.length_eq_zero] using hne
  simp only [applyExpense, if_neg hlen, if_pos hp]
  rw [debitShares_eq R _ e.shared_with _ hsub]
  congr 1
  funext q
  simp only [update, expDelta]
  by_cases hq : q = e.payer
  · rw [if_pos hq, if_pos hq, hq]
    ring
  · rw [if_neg hq, if_neg hq]
    ring

theorem applyPayment_eq (R : List String) (b : String → ℚ) (p : Payment)
    (hp : validPayment R p) :
    applyPayment R b p = some (fun q => b q + payDelta p q) := by
  obtain ⟨h1, h2⟩ := hp
  simp only [applyPayment, if_pos h1, if_pos h2]
  congr 1
  funext q
  simp only [update, payDelta]
  by_cases hq2 : q = p.pto
  · rw [if_pos hq2]
    by_cases hft : p.pto = p.pfrom
    · rw [if_pos hft, if_pos (hq2.trans hft), if_pos hq2, hq2, hft]
      ring
    · have hq1 : ¬ q = p.pfrom := fun h => hft (hq2.symm.trans h)
      rw [if_neg hft, if_neg hq1, if_pos hq2, hq2]
      ring
  · rw [if_neg hq2, if_neg hq2]
    by_cases hq1 : q = p.pfrom
    · rw [if_pos hq1, if_pos hq1, hq1]
      ring
    · rw [if_neg hq1, if_neg hq1]
      ring

theorem foldOpt_expenses (R : List String) :
    ∀ (E : List Expense) (b : String → ℚ), (∀ e ∈ E, validExpense R e) →
      foldOpt (applyExpense R) b E =
        some (fun q => b q + (E.map (fun e => expDelta e q)).sum) := by
  intro E
  induction E with
  | nil =>
    intro b _
    simp [foldOpt]
  | cons e E ih =>
    intro b h
    simp only [foldOpt]
    rw [applyExpense_eq R b e (h e (by simp)), Option.some_bind,
      ih _ (fun x hx => h x (List.mem_cons_of_mem _ hx))]
    congr 1
    funext q
    simp only [List.map_cons, List.sum_cons]
    ring

theorem foldOpt_payments (R : List String) :
    ∀ (P : List Payment) (b : String → ℚ), (∀ p ∈ P, validPayment R p) →
      foldOpt (applyPayment R) b P =
        some (fun q => b q + (P.map (fun p => payDelta p q)).sum) := by
  intro P
  induction P with
  | nil =>
    intro b _
    simp [foldOpt]
  | cons p P ih =>
    intro b h
    simp only [foldOpt]
    rw [applyPayment_eq R b p (h p (by simp)), Option.some_bind,
      ih _ (fun x hx => h x (List.mem_cons_of_mem _ hx))]
    congr 1
    funext q
    simp only [List.map_cons, List.sum_cons]
    ring

theorem calculate_balances_eq (R : List String) (E : List Expense) (P : List Payment)
    (hE : ∀ e ∈ E, validExpense R e) (hP : ∀ p ∈ P, validPayment R p) :
    calculate_balances R E P =
      some (fun q => (E.map (fun e => expDelta e q)).sum +
        (P.map (fun p => payDelta p q)).sum) := by
  unfold calculate_balances
  rw [foldOpt_expenses R E _ hE, Option.some_bind, foldOpt_payments R P _ hP]
  congr 1
  funext q
  ring

theorem map_sum_count (R : List String) (hR : R.Nodup) :
    ∀ sw : List String, (∀ q ∈ sw, q ∈ R) →
      (R.map (fun q => (sw.count q : ℚ))).sum = sw.length := by
  intro sw
  induction sw with
  | nil =>
    intro _
    simp [map_sum_zero]
  | cons s sw ih =>
    intro h
    have hmap : R.map (fun q => ((s :: sw).count q : ℚ)) =
        R.map (fun q => (sw.count q : ℚ) + if q = s then 1 else 0) := by
      apply List.map_congr_left
      intro q _
      rw [List.count_cons]
      push_cast
      congr 1
      by_cases hqs : q = s
      · rw [if_pos hqs, if_pos (by simpa using hqs.symm)]
      · rw [if_neg hqs, if_neg (by simpa using fun hh => hqs (by simpa using hh.symm))]
    rw [hmap, map_sum_add, ih (fun q hq => h q (List.mem_cons_of_mem _ hq)),
      map_sum_ite s 1 R hR, if_pos (h s (by simp))]
    simp only [List.length_cons]
    push_cast
    ring

/-- The net effect of one well-formed expense on the whole roster is zero:
the payer's credit `amount` exactly cancels the `len(shared_with)` debits of
`amount / len(shared_with)`. -/
theorem sum_expDelta (R : List String) (hR : R.Nodup) (e : Expense)
    (he : validExpense R e) : (R.map (expDelta e)).sum = 0 := by
  obtain ⟨hp, hne, hsub⟩ := he
  have hlen : (e.shared_with.length : ℚ) ≠ 0 := by
    have : ¬ e.shared_with.length = 0 := by simpa [List.length_eq_zero] using hne
    exact_mod_cast this
  unfold expDelta
  rw [map_sum_sub, map_sum_mul, map_sum_ite e.payer e.amount R hR, if_pos hp,
    map_sum_count R hR e.shared_with hsub]
  rw [mul_comm, div_mul_cancel₀ e.amount hlen, sub_self]

/-- The net effect of one well-formed payment on the whole roster is zero. -/
theorem sum_payDelta (R : List String) (hR : R.Nodup) (p : Payment)
    (hp : validPayment R p) : (R.map (payDelta p)).sum = 0 := by
  obtain ⟨h1, h2⟩ := hp
  unfold payDelta
  rw [map_sum_sub, map_sum_ite p.pfrom p.amount R hR, if_pos h1,
    map_sum_ite p.pto p.amount R hR, if_pos h2, sub_self]

theorem sum_swap {α : Type} (R : List String) (L : List α) (f : α → String → ℚ) :
    (R.map (fun q => (L.map (fun x => f x q)).sum)).sum =
      (L.map (fun x => (R.map (f x)).sum)).sum := by
  induction L with
  | nil => simp [map_sum_zero]
  | cons x L ih =>
    simp only [List.map_cons, List.sum_cons]
    rw [← ih, ← map_sum_add]

theorem ROOMMATES_nodup : ROOMMATES.Nodup := by decide

/-! ### Claim theorems -/

/-- C1: Conservation. For every list of expenses (each with a payer in the
roster, positive amount, and non-empty `shared_with` contained in the roster)
and every list of payments between roster members, the sum over the whole
roster `ROOMMATES` of the balances returned by `calculate_balances` is
exactly 0 (exactly over ℚ, hence within any floating tolerance). -/
theorem conservation (E : List Expense) (P : List Payment)
    (hE : ∀ e ∈ E, validExpense ROOMMATES e)
    (_hEpos : ∀ e ∈ E, 0 < e.amount)
    (hP : ∀ p ∈ P, validPayment ROOMMATES p)
    (_hPpos : ∀ p ∈ P, 0 < p.amount) :
    (calculate_balances ROOMMATES E P).map (fun b => (ROOMMATES.map b).sum) =
      some 0 := by
  rw [calculate_balances_eq ROOMMATES E P hE hP]
  simp only [Option.map_some']
  congr 1
  rw [map_sum_add, sum_swap, sum_swap]
  rw [List.sum_eq_zero, List.sum_eq_zero, add_zero]
  · intro x hx
    rcases List.mem_map.mp hx with ⟨p, hp, rfl⟩
    exact sum_payDelta ROOMMATES ROOMMATES_nodup p (hP p hp)
  · intro x hx
    rcases List.mem_map.mp hx with ⟨e, he, rfl⟩
    exact sum_expDelta ROOMMATES ROOMMATES_nodup e (hE e he)

/-- Witness for C1 at a concrete valid ledger: one expense of 30 paid by
Safi and shared three ways, one payment of 10 from Gandofly to Safi. -/
theorem conservation_witness :
    (calculate_balances ROOMMATES
        [⟨"Safi", 30, ["Safi", "Gandofly", "Lolo"]⟩]
        [⟨"Gandofly", "Safi", 10⟩]).map (fun b => (ROOMMATES.map b).sum) =
      some 0 :=
  conservation _ _ (by decide) (by decide) (by decide) (by decide)

/-- C4: Order independence. `calculate_balances` on any permutation of the
same expense and payment lists over the roster yields identical balances
(exactly, over ℚ). -/
theorem order_independence (E E' : List Expense) (P P' : List Payment)
    (hE : ∀ e ∈ E, validExpense ROOMMATES e)
    (hP : ∀ p ∈ P, validPayment ROOMMATES p)
    (hEperm : E.Perm E') (hPperm : P.Perm P') :
    calculate_balances ROOMMATES E P = calculate_balances ROOMMATES E' P' := by
  have hE' : ∀ e ∈ E', validExpense ROOMMATES e :=
    fun e he => hE e (hEperm.mem_iff.mpr he)
  have hP' : ∀ p ∈ P', validPayment ROOMMATES p :=
    fun p hp => hP p (hPperm.mem_iff.mpr hp)
  rw [calculate_balances_eq ROOMMATES E P hE hP,
    calculate_balances_eq ROOMMATES E' P' hE' hP']
  congr 1
  funext q
  rw [(hEperm.map (fun e => expDelta e q)).sum_eq,
    (hPperm.map (fun p => payDelta p q)).sum_eq]

/-- Witness for C4 at a concrete pair of permuted ledgers. -/
theorem order_independence_witness :
    calculate_balances ROOMMATES
        [⟨"Safi", 30, ["Safi", "Gandofly"]⟩, ⟨"Lolo", 12, ["Jojo"]⟩]
        [⟨"Gandofly", "Safi", 10⟩, ⟨"Jojo", "Lolo", 6⟩] =
      calculate_balances ROOMMATES
        [⟨"Lolo", 12, ["Jojo"]⟩, ⟨"Safi", 30, ["Safi", "Gandofly"]⟩]
        [⟨"Jojo", "Lolo", 6⟩, ⟨"Gandofly", "Safi", 10⟩] :=
  order_independence _ _ _ _ (by decide) (by decide) (by decide) (by decide)

/-! ### Append and shift lemmas for the fold -/

theorem foldOpt_append {α : Type} (f : (String → ℚ) → α → Option (String → ℚ))
    (l1 l2 : List α) : ∀ b : String → ℚ,
      foldOpt f b (l1 ++ l2) = (foldOpt f b l1).bind (fun b2 => foldOpt f b2 l2) := by
  induction l1 with
  | nil =>
    intro b
    simp [foldOpt]
  | cons x l1 ih =>
    intro b
    simp only [List.cons_append, foldOpt]
    cases f b x with
    | none => simp
    | some b2 => simp [ih b2]

/-- Processing one payment commutes with a pointwise shift of the balances:
the step adds a fixed delta (or fails), independently of the running value. -/
theorem applyPayment_shift (R : List String) (b δ : String → ℚ) (p : Payment) :
    applyPayment R (fun q => b q + δ q) p =
      (applyPayment R b p).map (fun b2 => fun q => b2 q + δ q) := by
  unfold applyPayment
  by_cases h1 : p.pfrom ∈ R
  · by_cases h2 : p.pto ∈ R
    · rw [if_pos h1, if_pos h2, if_pos h1, if_pos h2]
      simp only [Option.map_some']
      congr 1
      funext q
      simp only [update]
      by_cases hq2 : q = p.pto
      · rw [if_pos hq2, if_pos hq2]
        by_cases hft : p.pto = p.pfrom
        · rw [if_pos hft, if_pos hft, hq2, hft]
          ring
        · rw [if_neg hft, if_neg hft, hq2]
          ring
      · rw [if_neg hq2, if_neg hq2]
        by_cases hq1 : q = p.pfrom
        · rw [if_pos hq1, if_pos hq1, hq1]
          ring
        · rw [if_neg hq1, if_neg hq1]
    · rw [if_pos h1, if_neg h2, if_pos h1, if_neg h2]
      rfl
  · rw [if_neg h1, if_neg h1]
    rfl

theorem foldOpt_payments_shift (R : List String) (δ : String → ℚ) :
    ∀ (P : List Payment) (b : String → ℚ),
      foldOpt (applyPayment R) (fun q => b q + δ q) P =
        (foldOpt (applyPayment R) b P).map (fun b2 => fun q => b2 q + δ q) := by
  intro P
  induction P with
  | nil =>
    intro b
    simp [foldOpt]
  | cons p P ih =>
    intro b
    simp only [foldOpt]
    rw [applyPayment_shift]
    cases applyPayment R b p with
    | none => simp
    | some b2 => simpa using ih b2

/-- C7: Idempotent no-op pair. For every prior record lists, roster members
X and Y and amount A > 0, appending a payment of A from X to Y together with
an expense with payer Y, amount A, shared only with X leaves every
participant's aggregated balance equal to its prior value (the whole balance
mapping, hence every participant, is unchanged; exactly over ℚ). -/
theorem idempotent_noop (E : List Expense) (P : List Payment) (X Y : String)
    (A : ℚ) (hX : X ∈ ROOMMATES) (hY : Y ∈ ROOMMATES) (_hA : 0 < A) :
    calculate_balances ROOMMATES (E ++ [⟨Y, A, [X]⟩]) (P ++ [⟨X, Y, A⟩]) =
      calculate_balances ROOMMATES E P := by
  unfold calculate_balances
  rw [foldOpt_append]
  cases hfold : foldOpt (applyExpense ROOMMATES) (fun _ => 0) E with
  | none => simp
  | some bE =>
    simp only [Option.some_bind]
    have hsingle : foldOpt (applyExpense ROOMMATES) bE [⟨Y, A, [X]⟩] =
        some (fun q => bE q + expDelta ⟨Y, A, [X]⟩ q) := by
      simp only [foldOpt]
      rw [applyExpense_eq ROOMMATES bE _ ⟨hY, by simp, by simpa using hX⟩]
      rfl
    rw [hsingle, Option.some_bind, foldOpt_append, foldOpt_payments_shift]
    cases hfoldP : foldOpt (applyPayment ROOMMATES) bE P with
    | none => simp
    | some bP =>
      simp only [Option.map_some', Option.some_bind]
      have hpay : foldOpt (applyPayment ROOMMATES)
          (fun q => bP q + expDelta ⟨Y, A, [X]⟩ q) [⟨X, Y, A⟩] =
          some (fun q => (bP q + expDelta ⟨Y, A, [X]⟩ q) + payDelta ⟨X, Y, A⟩ q) := by
        simp only [foldOpt]
        rw [applyPayment_eq ROOMMATES _ _ ⟨hX, hY⟩]
        rfl
      rw [hpay]
      congr 1
      funext q
      have hcount : ((List.count q [X] : ℕ) : ℚ) = if q = X then 1 else 0 := by
        by_cases hqX : q = X
        · subst hqX
          simp
        · have hXq : ¬ (X == q) = true := by
            simp only [beq_iff_eq]
            exact fun hh => hqX hh.symm
          simp [List.count_cons, List.count_nil, hXq, hqX]
      simp only [expDelta, payDelta, List.length_cons, List.length_nil]
      rw [show ([X].count q : ℚ) = if q = X then 1 else 0 from hcount]
      push_cast
      split_ifs <;> ring

/-- Witness for C7: starting from an empty ledger, a payment of 5 from Safi
to Gandofly plus an expense of 5 paid by Gandofly shared only with Safi
leave every balance at its prior value. -/
theorem idempotent_noop_witness :
    calculate_balances ROOMMATES ([] ++ [⟨"Gandofly", 5, ["Safi"]⟩])
        ([] ++ [⟨"Safi", "Gandofly", 5⟩]) =
      calculate_balances ROOMMATES [] [] :=
  idempotent_noop [] [] "Safi" "Gandofly" 5 (by decide) (by decide) (by decide)

/-- A payment whose two ends are the same roster member leaves the balances
dict unchanged: the credit and the debit cancel exactly. -/
theorem applyPayment_self (R : List String) (b : String → ℚ) (p : Payment)
    (hself : p.pfrom = p.pto) (hmem : p.pfrom ∈ R) :
    applyPayment R b p = some b := by
  unfold applyPayment
  rw [if_pos hmem, if_pos (hself ▸ hmem)]
  refine congrArg some ?_
  funext q
  simp only [update]
  by_cases hq : q = p.pto
  · rw [if_pos hq, if_pos hself.symm, hq, hself]
    ring
  · rw [if_neg hq, if_neg (fun hh : q = p.pfrom => hq (hh.trans hself))]

/-- C9: Self-payment is a no-op. For every expense list and payment lists
around it, a payment whose `from` and `to` are the same participant yields
the same `calculate_balances` result with that payment in the list as
without it. -/
theorem self_payment_noop (E : List Expense) (P1 P2 : List Payment)
    (pay : Payment) (hself : pay.pfrom = pay.pto)
    (hmem : pay.pfrom ∈ ROOMMATES) :
    calculate_balances ROOMMATES E (P1 ++ pay :: P2) =
      calculate_balances ROOMMATES E (P1 ++ P2) := by
  unfold calculate_balances
  cases foldOpt (applyExpense ROOMMATES) (fun _ => 0) E with
  | none => simp
  | some bE =>
    simp only [Option.some_bind]
    rw [foldOpt_append, foldOpt_append]
    cases foldOpt (applyPayment ROOMMATES) bE P1 with
    | none => simp
    | some b1 =>
      simp only [Option.some_bind, foldOpt]
      rw [applyPayment_self ROOMMATES b1 pay hself hmem, Option.some_bind]

/-- Witness for C9: a self-payment of 7 by Lolo on an otherwise empty
ledger changes nothing. -/
theorem self_payment_noop_witness :
    calculate_balances ROOMMATES [] ([] ++ ⟨"Lolo", "Lolo", 7⟩ :: []) =
      calculate_balances ROOMMATES [] ([] ++ []) :=
  self_payment_noop [] [] [] ⟨"Lolo", "Lolo", 7⟩ (by decide) (by decide)

/-! ### Unknown participant names make the aggregator fail -/

theorem debitShares_unknown (R : List String) (split : ℚ) :
    ∀ (sw : List String) (b : String → ℚ), (∃ q ∈ sw, q ∉ R) →
      debitShares R split b sw = none := by
  intro sw
  induction sw with
  | nil =>
    intro b h
    rcases h with ⟨q, hq, _⟩
    exact absurd hq (List.not_mem_nil q)
  | cons p rest ih =>
    intro b h
    by_cases hp : p ∈ R
    · simp only [debitShares, if_pos hp]
      apply ih
      rcases h with ⟨q, hq, hqR⟩
      rcases List.mem_cons.mp hq with hq1 | hq2
      · exact absurd (hq1 ▸ hp) hqR
      · exact ⟨q, hq2, hqR⟩
    · simp only [debitShares, if_neg hp]

theorem applyExpense_unknown (R : List String) (b : String → ℚ) (e : Expense)
    (h : ∃ q ∈ e.shared_with, q ∉ R) : applyExpense R b e = none := by
  unfold applyExpense
  by_cases hlen : e.shared_with.length = 0
  · rw [if_pos hlen]
  · rw [if_neg hlen]
    by_cases hp : e.payer ∈ R
    · rw [if_pos hp]
      exact debitShares_unknown R _ e.shared_with _ h
    · rw [if_neg hp]

theorem foldOpt_expenses_unknown (R : List String) :
    ∀ (E : List Expense) (b : String → ℚ),
      (∃ e ∈ E, ∃ q ∈ e.shared_with, q ∉ R) →
      foldOpt (applyExpense R) b E = none := by
  intro E
  induction E with
  | nil =>
    intro b h
    rcases h with ⟨e, he, _⟩
    exact absurd he (List.not_mem_nil e)
  | cons a E ih =>
    intro b h
    rcases h with ⟨e, he, hbad⟩
    rcases List.mem_cons.mp he with he1 | he2
    · subst he1
      simp only [foldOpt, applyExpense_unknown R b e hbad, Option.none_bind]
    · simp only [foldOpt]
      cases applyExpense R b a with
      | none => rfl
      | some b2 => exact ih b2 ⟨e, he2, hbad⟩

/-- C3 counterexample: the claim says the aggregator silently ignores a
`shared_with` name outside the roster and still returns a balance mapping.
On the expense `{payer: Safi, amount: 30, shared_with: [Safi, Alice]}`
(Alice is not in `ROOMMATES`) the aggregator does not return a mapping:
`balances[person] -= split_amount` raises KeyError (embedded as `none`). -/
theorem unknown_name_not_ignored :
    ¬ ∃ b, calculate_balances ROOMMATES
        [⟨"Safi", 30, ["Safi", "Alice"]⟩] [] = some b := by
  rintro ⟨b, hb⟩
  rw [show calculate_balances ROOMMATES
      [⟨"Safi", 30, ["Safi", "Alice"]⟩] [] = none from rfl] at hb
  exact Option.noConfusion hb

/-- C3 amended: unknown names are not ignored; whenever some expense's
`shared_with` contains a name outside the roster, `calculate_balances`
fails (KeyError in Python, `none` here) instead of returning balances. -/
theorem unknown_name_fails (E : List Expense) (P : List Payment)
    (h : ∃ e ∈ E, ∃ q ∈ e.shared_with, q ∉ ROOMMATES) :
    calculate_balances ROOMMATES E P = none := by
  unfold calculate_balances
  rw [foldOpt_expenses_unknown ROOMMATES E _ h, Option.none_bind]

/-- Witness for the amended C3 at the concrete expense shared with Alice. -/
theorem unknown_name_fails_witness :
    calculate_balances ROOMMATES [⟨"Safi", 30, ["Safi", "Alice"]⟩] [] = none :=
  unknown_name_fails _ _ (by decide)

/-- C5: Everyone-settled case. For every balance mapping in which every
participant's balance lies strictly between -0.01 and +0.01, the settlement
planner returns the empty sequence: nobody is partitioned as a creditor or a
debtor, so the matching loop never runs. -/
theorem settled_empty (b : String → ℚ)
    (h : ∀ p ∈ ROOMMATES, -0.01 < b p ∧ b p < 0.01) :
    calculate_settlement_on ROOMMATES b = [] := by
  have hc : creditorsOf ROOMMATES b = [] := by
    unfold creditorsOf
    rw [List.filter_eq_nil_iff.mpr]
    · rfl
    · intro p hp
      simpa using not_lt.mpr (le_of_lt (h p hp).2)
  have hd : debtorsOf ROOMMATES b = [] := by
    unfold debtorsOf
    rw [List.filter_eq_nil_iff.mpr]
    · rfl
    · intro p hp
      simpa using not_lt.mpr (le_of_lt (h p hp).1)
  unfold calculate_settlement_on
  rw [hc, hd]
  simp [sweep, sortAmountDesc]

/-- Witness for C5: all balances at 0.009 yield an empty plan. -/
theorem settled_empty_witness :
    calculate_settlement_on ROOMMATES (fun _ => 0.009) = [] :=
  settled_empty _ (by intro p _; norm_num)

/-- C8: Scenario 1. For roster `["A", "B"]` with the single expense
`{payer: A, amount: 100, shared_with: [A, B]}` and no payments, the
aggregator returns balances A ↦ +50, B ↦ -50, and the settlement planner on
those balances returns exactly `[{from: B, to: A, amount: 50.00}]`. -/
theorem scenario1 :
    (calculate_balances ["A", "B"] [⟨"A", 100, ["A", "B"]⟩] []).map
        (fun b => (b ("A"), b ("B"))) = some (50, -50) ∧
      calculate_settlement ["A", "B"] [⟨"A", 100, ["A", "B"]⟩] [] =
        some [⟨"B", "A", 50⟩] := by
  constructor
  · norm_num +decide [calculate_balances, foldOpt, applyExpense, debitShares, update]
  · norm_num +decide [calculate_settlement, calculate_balances,
      calculate_settlement_on, foldOpt, applyExpense, debitShares, update,
      creditorsOf, debtorsOf, sortAmountDesc, insertAmountDesc, sweep, round2,
      round_eq]

/-- The payment list exhibiting the settlement-correctness failure: it
yields the balance mapping Safi ↦ -0.03, Gandofly ↦ -0.03, Lolo ↦ +0.02,
Jojo ↦ +0.02, Body ↦ +0.02, Paki ↦ 0 (conserved, all in whole cents). -/
def shortfallPayments : List Payment :=
  [⟨"Lolo", "Safi", 0.02⟩, ⟨"Jojo", "Safi", 0.01⟩,
   ⟨"Jojo", "Gandofly", 0.01⟩, ⟨"Body", "Gandofly", 0.02⟩]

/-- C2 (exhibit of the code bug): on `shortfallPayments` the planner emits
`[Safi→Lolo 0.02, Gandofly→Body 0.02]`; the creditor Jojo is owed 0.02
(second conjunct) yet the settlement amounts with Jojo as `to` sum to 0
(third conjunct), missing Jojo's credit by 0.02 > 0.01. The cause: the loop
decrements remaining amounts by `transfer = min(...)` even when
`transfer > 0.01` fails (here transfer is exactly 0.01 twice), dropping the
two cent-sized transfers that were meant to reach Jojo. -/
theorem settlement_shortfall :
    calculate_settlement ROOMMATES [] shortfallPayments =
        some [⟨"Safi", "Lolo", 0.02⟩, ⟨"Gandofly", "Body", 0.02⟩] ∧
      (calculate_balances ROOMMATES [] shortfallPayments).map
          (fun b => b ("Jojo")) = some 0.02 ∧
      (calculate_settlement ROOMMATES [] shortfallPayments).map
          (fun ss => ((ss.filter (fun s => s.sto == "Jojo")).map
            Settlement.amount).sum) = some 0 := by
  refine ⟨?_, ?_, ?_⟩
  · norm_num +decide [shortfallPayments, calculate_settlement, calculate_balances,
      calculate_settlement_on, foldOpt, applyPayment, update, creditorsOf,
      debtorsOf, sortAmountDesc, insertAmountDesc, sweep, round2, round_eq,
      ROOMMATES]
  · norm_num +decide [shortfallPayments, calculate_balances, foldOpt,
      applyPayment, update, ROOMMATES]
  · norm_num +decide [shortfallPayments, calculate_settlement, calculate_balances,
      calculate_settlement_on, foldOpt, applyPayment, update, creditorsOf,
      debtorsOf, sortAmountDesc, insertAmountDesc, sweep, round2, round_eq,
      ROOMMATES]

/-- A fuel of `d.length + c.length` always suffices: every iteration of the
matching loop advances at least one of the two pointers. -/
theorem sweepFuel_eq_sweep :
    ∀ (n : Nat) (d c : List Entry), d.length + c.length ≤ n →
      sweepFuel n d c = some (sweep d c) := by
  intro n
  induction n with
  | zero =>
    intro d c h
    cases d with
    | nil => simp [sweepFuel, sweep]
    | cons d0 ds =>
      cases c with
      | nil => simp [sweepFuel, sweep]
      | cons c0 cs =>
        simp only [List.length_cons] at h
        omega
  | succ n ih =>
    intro d c h
    cases d with
    | nil => simp [sweepFuel, sweep]
    | cons d0 ds =>
      cases c with
      | nil => simp [sweepFuel, sweep]
      | cons c0 cs =>
        simp only [List.length_cons] at h
        simp only [sweepFuel, sweep]
        by_cases h1 : d0.amount - min d0.amount c0.amount < 0.01
        · by_cases h2 : c0.amount - min d0.amount c0.amount < 0.01
          · rw [ih ds cs (by omega)]
            simp [h1, h2]
          · rw [ih ds (⟨c0.name, c0.amount - min d0.amount c0.amount⟩ :: cs)
                (by simp only [List.length_cons]; omega)]
            simp [h1, h2]
        · rw [ih (⟨d0.name, d0.amount - min d0.amount c0.amount⟩ :: ds) cs
              (by simp only [List.length_cons]; omega)]
          simp [h1]

/-- C6: Termination of the greedy sweep. For every balance mapping, the
two-pointer loop of the settlement planner terminates within
`len(debtors) + len(creditors)` iterations — each step advances at least one
pointer — and `calculate_settlement_on` is its (total) result. -/
theorem settlement_loop_terminates (roster : List String) (b : String → ℚ) :
    sweepFuel
        ((sortAmountDesc (debtorsOf roster b)).length +
          (sortAmountDesc (creditorsOf roster b)).length)
        (sortAmountDesc (debtorsOf roster b))
        (sortAmountDesc (creditorsOf roster b)) =
      some (calculate_settlement_on roster b) :=
  sweepFuel_eq_sweep _ _ _ le_rfl

/-- Every settlement emitted by the matching loop pairs a name from the
debtors list with a name from the creditors list; when the two lists share
no name, `from` and `to` always differ. -/
theorem sweep_from_ne_to :
    ∀ (n : Nat) (d c : List Entry), d.length + c.length ≤ n →
      (∀ x ∈ d, ∀ y ∈ c, x.name ≠ y.name) →
      ∀ s ∈ sweep d c, s.sfrom ≠ s.sto := by
  intro n
  induction n with
  | zero =>
    intro d c h hnames s hs
    cases d with
    | nil => simp [sweep] at hs
    | cons d0 ds =>
      cases c with
      | nil => simp [sweep] at hs
      | cons c0 cs =>
        simp only [List.length_cons] at h
        omega
  | succ n ih =>
    intro d c h hnames s hs
    cases d with
    | nil => simp [sweep] at hs
    | cons d0 ds =>
      cases c with
      | nil => simp [sweep] at hs
      | cons c0 cs =>
        simp only [List.length_cons] at h
        simp only [sweep] at hs
        have hhead : s = (⟨d0.name, c0.name,
            round2 (min d0.amount c0.amount)⟩ : Settlement) → s.sfrom ≠ s.sto := by
          intro hh
          subst hh
          exact hnames d0 (List.mem_cons_self _ _) c0 (List.mem_cons_self _ _)
        by_cases h1 : d0.amount - min d0.amount c0.amount < 0.01
        · by_cases h2 : c0.amount - min d0.amount c0.amount < 0.01
          · simp only [h1, h2, ite_true] at hs
            have hrec : ∀ s ∈ sweep ds cs, s.sfrom ≠ s.sto :=
              ih ds cs (by omega)
                (fun x hx y hy =>
                  hnames x (List.mem_cons_of_mem _ hx) y (List.mem_cons_of_mem _ hy))
            by_cases h3 : min d0.amount c0.amount > 0.01
            · rw [if_pos h3] at hs
              rcases List.mem_cons.mp hs with hh | hs'
              · exact hhead hh
              · exact hrec s hs'
            · rw [if_neg h3] at hs
              exact hrec s hs
          · simp only [h1, h2, ite_true, ite_false] at hs
            have hrec : ∀ s ∈ sweep ds
                (⟨c0.name, c0.amount - min d0.amount c0.amount⟩ :: cs),
                s.sfrom ≠ s.sto := by
              refine ih ds _ (by simp only [List.length_cons]; omega) ?_
              intro x hx y hy
              rcases List.mem_cons.mp hy with hy0 | hy'
              · subst hy0
                exact hnames x (List.mem_cons_of_mem _ hx) c0 (List.mem_cons_self _ _)
              · exact hnames x (List.mem_cons_of_mem _ hx) y (List.mem_cons_of_mem _ hy')
            by_cases h3 : min d0.amount c0.amount > 0.01
            · rw [if_pos h3] at hs
              rcases List.mem_cons.mp hs with hh | hs'
              · exact hhead hh
              · exact hrec s hs'
            · rw [if_neg h3] at hs
              exact hrec s hs
        · simp only [h1, ite_false] at hs
          have hrec : ∀ s ∈ sweep
              (⟨d0.name, d0.amount - min d0.amount c0.amount⟩ :: ds) cs,
              s.sfrom ≠ s.sto := by
            refine ih _ cs (by simp only [List.length_cons]; omega) ?_
            intro x hx y hy
            rcases List.mem_cons.mp hx with hx0 | hx'
            · subst hx0
              exact hnames d0 (List.mem_cons_self _ _) y (List.mem_cons_of_mem _ hy)
            · exact hnames x (List.mem_cons_of_mem _ hx') y (List.mem_cons_of_mem _ hy)
          by_cases h3 : min d0.amount c0.amount > 0.01
          · rw [if_pos h3] at hs
            rcases List.mem_cons.mp hs with hh | hs'
            · exact hhead hh
            · exact hrec s hs'
          · rw [if_neg h3] at hs
            exact hrec s hs

theorem mem_insertAmountDesc {a x : Entry} {l : List Entry} :
    a ∈ insertAmountDesc x l ↔ a = x ∨ a ∈ l := by
  induction l with
  | nil => simp [insertAmountDesc]
  | cons y ys ih =>
    unfold insertAmountDesc
    by_cases hxy : x.amount ≥ y.amount
    · rw [if_pos hxy]
      simp
    · rw [if_neg hxy]
      simp only [List.mem_cons, ih]
      tauto

theorem mem_sortAmountDesc {a : Entry} {l : List Entry} :
    a ∈ sortAmountDesc l ↔ a ∈ l := by
  induction l with
  | nil => simp [sortAmountDesc]
  | cons x xs ih =>
    simp [sortAmountDesc, mem_insertAmountDesc, ih]

theorem mem_debtorsOf {roster : List String} {b : String → ℚ} {x : Entry}
    (h : x ∈ debtorsOf roster b) : b x.name < -0.01 := by
  unfold debtorsOf at h
  rcases List.mem_map.mp h with ⟨p, hp, rfl⟩
  simpa using List.of_mem_filter hp

theorem mem_creditorsOf {roster : List String} {b : String → ℚ} {y : Entry}
    (h : y ∈ creditorsOf roster b) : b y.name > 0.01 := by
  unfold creditorsOf at h
  rcases List.mem_map.mp h with ⟨p, hp, rfl⟩
  simpa using List.of_mem_filter hp

/-- C10: in every settlement emitted by the settlement planner, the `from`
participant differs from the `to` participant: debtors (balance < -0.01)
and creditors (balance > 0.01) are disjoint sets of names. -/
theorem settlement_from_ne_to (roster : List String) (b : String → ℚ)
    (s : Settlement) (hs : s ∈ calculate_settlement_on roster b) :
    s.sfrom ≠ s.sto := by
  refine sweep_from_ne_to
    ((sortAmountDesc (debtorsOf roster b)).length +
      (sortAmountDesc (creditorsOf roster b)).length)
    _ _ le_rfl ?_ s hs
  intro x hx y hy hxy
  have hxd : b x.name < -0.01 := mem_debtorsOf (mem_sortAmountDesc.mp hx)
  have hyc : b y.name > 0.01 := mem_creditorsOf (mem_sortAmountDesc.mp hy)
  rw [hxy] at hxd
  have : (0.01 : ℚ) < -0.01 := lt_trans hyc hxd
  norm_num at this

/-- Witness for C10: on the balance mapping Safi ↦ +50, Gandofly ↦ -50 the
planner emits the single settlement Gandofly → Safi of 50, whose two ends
differ. -/
theorem settlement_from_ne_to_witness :
    ((⟨"Gandofly", "Safi", 50⟩ : Settlement) ∈
        calculate_settlement_on ROOMMATES
          (fun p => if p = "Safi" then 50 else if p = "Gandofly" then -50 else 0)) ∧
      ("Gandofly" : String) ≠ "Safi" := by
  constructor
  · norm_num +decide [calculate_settlement_on, creditorsOf, debtorsOf,
      sortAmountDesc, insertAmountDesc, sweep, round2, round_eq, ROOMMATES]
  · exact settlement_from_ne_to ROOMMATES
      (fun p => if p = "Safi" then 50 else if p = "Gandofly" then -50 else 0)
      ⟨"Gandofly", "Safi", 50⟩
      (by norm_num +decide [calculate_settlement_on, creditorsOf, debtorsOf,
        sortAmountDesc, insertAmountDesc, sweep, round2, round_eq, ROOMMATES])
